import Mathlib

/-!
Verification of the aw-core event-transform library against its design
specification.  The repository ships only the package manifest and the
test suite; the transform implementations (`filter_keyvals`,
`filter_period_intersect`, `heartbeat_merge`, `heartbeat_reduce`,
`merge_events_by_keys`, `sort_by_timestamp`, `sort_by_duration`) are
modelled here from the specification document, section by section.

Time instants and durations are embedded as integers (a fixed tick
unit); the `data` attribute mapping is an association list from string
keys to string values with structural equality, as the design notes
prescribe for grouping and merge comparisons.
-/

/-- Modelled from the spec: the Event data model of section 3 —
`timestamp` an absolute instant, `duration` a span defining the
half-open interval, `data` an attribute mapping with structural
equality. -/
structure Event where
  timestamp : Int
  duration : Int
  data : List (String × String)
deriving Repr, DecidableEq

/-- The start instant of an event's period (section 3). -/
def Event.start (e : Event) : Int := e.timestamp

/-- The end instant of an event's period: `timestamp + duration`
(section 3, half-open interval). -/
def Event.endTime (e : Event) : Int := e.timestamp + e.duration

/-- Modelled from the spec: the per-event match test of the
key/value inclusion-exclusion filter collaborator (section 6) — true
when the event's `data` has the key and its value is in the allow
set. -/
def matchesKeyval (key : String) (vals : List String) (e : Event) : Bool :=
  match e.data.lookup key with
  | some v => vals.contains v
  | none => false

/-- Modelled from the spec: `filter_keyvals` (section 6), the
key/value inclusion-exclusion filter — returns the subsequence of
events matching (or, with `exclude`, not matching) the allow set. -/
def filter_keyvals (events : List Event) (key : String) (vals : List String)
    (exclude : Bool) : List Event :=
  if exclude then events.filter (fun e => ! matchesKeyval key vals e)
  else events.filter (fun e => matchesKeyval key vals e)

/-- Modelled from the spec: the per-pair clipping step of
`filter_period_intersect` (section 4.1) — overlap start is
`max(e.start, f.start)`, overlap end is `min(e.end, f.end)`; an event
is emitted only when the overlap is nonempty, carrying `e`'s data. -/
def clip_pair (e f : Event) : Option Event :=
  if max e.start f.start < min e.endTime f.endTime then
    some { timestamp := max e.start f.start,
           duration := min e.endTime f.endTime - max e.start f.start,
           data := e.data }
  else none

/-- Modelled from the spec: `filter_period_intersect` (section 4.1) —
for every `e` in `to_filter` (outer) and `f` in `filter_with` (inner),
emit the clipped event of the pair when the periods overlap. -/
def filter_period_intersect (to_filter filter_with : List Event) : List Event :=
  to_filter.flatMap (fun e => filter_with.filterMap (clip_pair e))

/-- Modelled from the spec: `heartbeat_merge` (section 4.2) — merge
succeeds only when the data agree structurally, the gap from the last
event's end to the heartbeat's start is within `pulsetime`, and the
heartbeat does not start before the last event; on success the start
is kept and the interval end becomes the max of the two ends. -/
def heartbeat_merge (last_event heartbeat : Event) (pulsetime : Int) : Option Event :=
  if heartbeat.data = last_event.data ∧
      heartbeat.start - last_event.endTime ≤ pulsetime ∧
      last_event.start ≤ heartbeat.start then
    some { timestamp := last_event.timestamp,
           duration := max last_event.endTime heartbeat.endTime - last_event.timestamp,
           data := last_event.data }
  else none

/-- Modelled from the spec: one step of the accumulator loop of
`heartbeat_reduce` (section 4.3) — on a successful merge replace the
last accumulated event, otherwise (or when empty) append. -/
def hb_step (pulsetime : Int) (acc : List Event) (incoming : Event) : List Event :=
  match acc.getLast? with
  | none => acc ++ [incoming]
  | some lastAcc =>
    match heartbeat_merge lastAcc incoming pulsetime with
    | some merged => acc.dropLast ++ [merged]
    | none => acc ++ [incoming]

/-- Modelled from the spec: `heartbeat_reduce` (section 4.3) — a
single left-to-right pass driving `heartbeat_merge` from an empty
accumulator. -/
def heartbeat_reduce (events : List Event) (pulsetime : Int) : List Event :=
  events.foldl (hb_step pulsetime) []

/-- Modelled from the spec: the grouping key of `merge_events_by_keys`
(section 4.4) — the tuple of `data[k]` for each listed key, in order. -/
def keyTuple (keys : List String) (e : Event) : List (Option String) :=
  keys.map (fun k => e.data.lookup k)

/-- Modelled from the spec: `merge_events_by_keys` (section 4.4) —
partition events by key tuple, one output per group in first-appearance
order, duration summed over the group, data (and timestamp) taken from
the first member. -/
def merge_events_by_keys : List Event → List String → List Event
  | [], _ => []
  | e :: rest, keys =>
    { timestamp := e.timestamp,
      duration := e.duration +
        ((rest.filter (fun x => decide (keyTuple keys x = keyTuple keys e))).map
          Event.duration).sum,
      data := e.data }
      :: merge_events_by_keys
          (rest.filter (fun x => ! decide (keyTuple keys x = keyTuple keys e))) keys
termination_by l _ => l.length
decreasing_by
  simp only [List.length_cons]
  exact Nat.lt_succ_of_le (List.length_filter_le _ _)

/-- Modelled from the spec: the timestamp-ascending sort collaborator
(section 6), a stable sort. -/
def sort_by_timestamp (events : List Event) : List Event :=
  events.mergeSort (fun a b => decide (a.timestamp ≤ b.timestamp))

/-- Modelled from the spec: the duration-ascending sort collaborator
(section 6), a stable sort. -/
def sort_by_duration (events : List Event) : List Event :=
  events.mergeSort (fun a b => decide (a.duration ≤ b.duration))

/-! ### Sample events used by witness theorems -/

/-- A sample event used by witness instantiations. -/
def wEvA : Event := { timestamp := 0, duration := 1, data := [("label", "a")] }

/-- A sample event used by witness instantiations. -/
def wEvB : Event := { timestamp := 0, duration := 1, data := [("label", "b")] }

/-- A sample event used by witness instantiations. -/
def wEvC : Event := { timestamp := 0, duration := 10, data := [] }

/-- A sample event used by witness instantiations. -/
def wEvD : Event := { timestamp := 5, duration := 10, data := [] }

/-! ### C1 -/

/-- C1: for every pair of events, `e` from `to_filter` and `f` from
`filter_with`, `filter_period_intersect` emits an event for the pair
exactly when `min(e.end, f.end) > max(e.start, f.start)`, and the
emitted event has timestamp `max(e.start, f.start)`, duration
`min(e.end, f.end) - max(e.start, f.start)` and data `e.data`; when
the overlap is empty no event is emitted for the pair. -/
theorem filter_period_intersect_pair_spec (to_filter filter_with : List Event) :
    filter_period_intersect to_filter filter_with =
      to_filter.flatMap (fun e => filter_with.filterMap (fun f =>
        if min e.endTime f.endTime > max e.start f.start then
          some { timestamp := max e.start f.start,
                 duration := min e.endTime f.endTime - max e.start f.start,
                 data := e.data }
        else none)) := rfl

/-! ### C2 -/

/-- C2: `heartbeat_merge` returns a merged event exactly when the data
agree structurally, the gap from the last event's end to the
heartbeat's start is within `pulsetime`, and the heartbeat does not
start before the last event; on success the merged event keeps
`last_event`'s timestamp and data and its interval ends at
`max(last_event.end, heartbeat.end)`; otherwise the result is `none`,
never a zero-extension event. -/
theorem heartbeat_merge_spec (last_event heartbeat : Event) (pulsetime : Int) :
    (heartbeat_merge last_event heartbeat pulsetime =
      if heartbeat.data = last_event.data ∧
          heartbeat.start - last_event.endTime ≤ pulsetime ∧
          heartbeat.start ≥ last_event.start then
        some { timestamp := last_event.timestamp,
               duration := max last_event.endTime heartbeat.endTime - last_event.timestamp,
               data := last_event.data }
      else none) ∧
    ∀ m, heartbeat_merge last_event heartbeat pulsetime = some m →
      m.timestamp = last_event.timestamp ∧
      m.endTime = max last_event.endTime heartbeat.endTime ∧
      m.data = last_event.data := by
  constructor
  · simp only [heartbeat_merge, ge_iff_le]
  · intro m hm
    unfold heartbeat_merge at hm
    split at hm
    · cases hm
      refine ⟨rfl, ?_, rfl⟩
      simp only [Event.endTime]
      omega
    · cases hm

/-- Witness for C2 at a concrete merging pair. -/
theorem heartbeat_merge_spec_witness :
    ({ timestamp := 0, duration := 7, data := [] } : Event).timestamp
        = ({ timestamp := 0, duration := 5, data := [] } : Event).timestamp ∧
    ({ timestamp := 0, duration := 7, data := [] } : Event).endTime
        = max (Event.endTime { timestamp := 0, duration := 5, data := [] })
            (Event.endTime { timestamp := 3, duration := 4, data := [] }) ∧
    ({ timestamp := 0, duration := 7, data := [] } : Event).data
        = ({ timestamp := 0, duration := 5, data := [] } : Event).data :=
  (heartbeat_merge_spec { timestamp := 0, duration := 5, data := [] }
      { timestamp := 3, duration := 4, data := [] } 2).2
    { timestamp := 0, duration := 7, data := [] } (by decide)

/-! ### C10 -/

/-- Splitting a list by a Boolean test and its complement conserves
length. -/
theorem length_filter_add_length_filter_not (l : List Event) (p : Event → Bool) :
    (l.filter p).length + (l.filter (fun x => ! p x)).length = l.length := by
  induction l with
  | nil => rfl
  | cons x xs ih =>
    cases h : p x <;> simp [List.filter_cons, h] <;> omega

/-- C10: the include call and the exclude call of `filter_keyvals`
partition the input: the two result lengths sum to the input length
and every input event belongs to exactly one of the two results. -/
theorem filter_keyvals_partition (events : List Event) (key : String) (vals : List String) :
    (filter_keyvals events key vals false).length
        + (filter_keyvals events key vals true).length = events.length ∧
    ∀ e ∈ events,
      (e ∈ filter_keyvals events key vals false ∧
        e ∉ filter_keyvals events key vals true) ∨
      (e ∈ filter_keyvals events key vals true ∧
        e ∉ filter_keyvals events key vals false) := by
  have hinc : filter_keyvals events key vals false
      = events.filter (fun e => matchesKeyval key vals e) := rfl
  have hexc : filter_keyvals events key vals true
      = events.filter (fun e => ! matchesKeyval key vals e) := rfl
  constructor
  · rw [hinc, hexc]
    exact length_filter_add_length_filter_not events _
  · intro e he
    by_cases h : matchesKeyval key vals e = true
    · left
      rw [hinc, hexc]
      simp [List.mem_filter, he, h]
    · right
      rw [hinc, hexc]
      simp only [Bool.not_eq_true] at h
      simp [List.mem_filter, he, h]

/-- Witness for C10 at a concrete event list. -/
theorem filter_keyvals_partition_witness :
    (wEvA ∈ filter_keyvals [wEvA, wEvB] "label" ["a", "c"] false ∧
      wEvA ∉ filter_keyvals [wEvA, wEvB] "label" ["a", "c"] true) ∨
    (wEvA ∈ filter_keyvals [wEvA, wEvB] "label" ["a", "c"] true ∧
      wEvA ∉ filter_keyvals [wEvA, wEvB] "label" ["a", "c"] false) :=
  (filter_keyvals_partition [wEvA, wEvB] "label" ["a", "c"]).2 wEvA (by decide)

/-! ### C6 -/

/-- C6: every event emitted by `filter_period_intersect` arises from a
pair `(e, f)` such that the emitted sub-interval is contained in `e`'s
original half-open interval and its duration is at most
`min(e.duration, f.duration)`. -/
theorem filter_period_intersect_contained (to_filter filter_with : List Event) (ev : Event)
    (hev : ev ∈ filter_period_intersect to_filter filter_with) :
    ∃ e ∈ to_filter, ∃ f ∈ filter_with,
      e.start ≤ ev.start ∧ ev.endTime ≤ e.endTime ∧
      ev.duration ≤ min e.duration f.duration := by
  unfold filter_period_intersect at hev
  rw [List.mem_flatMap] at hev
  obtain ⟨e, he, hev⟩ := hev
  rw [List.mem_filterMap] at hev
  obtain ⟨f, hf, hclip⟩ := hev
  refine ⟨e, he, f, hf, ?_⟩
  unfold clip_pair at hclip
  split at hclip
  · cases hclip
    have h1 : e.start ≤ max e.start f.start := le_max_left _ _
    have h2 : f.start ≤ max e.start f.start := le_max_right _ _
    have h3 : min e.endTime f.endTime ≤ e.endTime := min_le_left _ _
    have h4 : min e.endTime f.endTime ≤ f.endTime := min_le_right _ _
    refine ⟨?_, ?_, le_min ?_ ?_⟩ <;>
      simp only [Event.start, Event.endTime, Event.duration] at * <;> omega
  · cases hclip

/-- Witness for C6 at a concrete overlapping pair. -/
theorem filter_period_intersect_contained_witness :
    ∃ e ∈ [wEvC], ∃ f ∈ [wEvD],
      e.start ≤ ({ timestamp := 5, duration := 5, data := [] } : Event).start ∧
      ({ timestamp := 5, duration := 5, data := [] } : Event).endTime ≤ e.endTime ∧
      ({ timestamp := 5, duration := 5, data := [] } : Event).duration
        ≤ min e.duration f.duration :=
  filter_period_intersect_contained [wEvC] [wEvD]
    { timestamp := 5, duration := 5, data := [] } (by decide)

/-! ### C5 -/

/-- Modelled from the spec: the overlap test of section 4.1 — the
pair overlaps when `max(e.start, f.start) < min(e.end, f.end)`. -/
def overlaps (e f : Event) : Bool :=
  decide (max e.start f.start < min e.endTime f.endTime)

/-- Modelled from the spec: the clipped event of an overlapping pair
(section 4.1), carrying `e`'s data. -/
def clipEvent (e f : Event) : Event :=
  { timestamp := max e.start f.start,
    duration := min e.endTime f.endTime - max e.start f.start,
    data := e.data }

/-- The per-event inner pass of `filter_period_intersect` emits one
clipped event per overlapping partner, in `filter_with` order. -/
theorem filterMap_clip_pair_eq (e : Event) (fw : List Event) :
    fw.filterMap (clip_pair e)
      = (fw.filter (fun f => overlaps e f)).map (fun f => clipEvent e f) := by
  induction fw with
  | nil => rfl
  | cons f fs ih =>
    by_cases h : max e.start f.start < min e.endTime f.endTime
    · rw [List.filterMap_cons_some (by simp [clip_pair, h, clipEvent] : clip_pair e f = some (clipEvent e f))]
      rw [List.filter_cons_of_pos (by simp [overlaps, h])]
      rw [List.map_cons, ih]
    · rw [List.filterMap_cons_none (by simp [clip_pair, h] : clip_pair e f = none)]
      rw [List.filter_cons_of_neg (by simp [overlaps, h])]
      exact ih

/-- C5: `filter_period_intersect` emits exactly one event per
overlapping pair, grouped per `to_filter` event in outer order with
`filter_with` iterated inner, the per-event groups concatenated and
never merged; its length is the number of overlapping pairs. -/
theorem filter_period_intersect_pair_order (to_filter filter_with : List Event) :
    filter_period_intersect to_filter filter_with =
      (to_filter.map (fun e => (filter_with.filter (fun f => overlaps e f)).map
        (fun f => clipEvent e f))).flatten ∧
    (filter_period_intersect to_filter filter_with).length =
      (to_filter.map (fun e => (filter_with.filter (fun f => overlaps e f)).length)).sum := by
  have hmain : filter_period_intersect to_filter filter_with =
      (to_filter.map (fun e => (filter_with.filter (fun f => overlaps e f)).map
        (fun f => clipEvent e f))).flatten := by
    unfold filter_period_intersect
    rw [List.flatMap_def]
    congr 1
    exact List.map_congr_left (fun e _ => filterMap_clip_pair_eq e filter_with)
  refine ⟨hmain, ?_⟩
  rw [hmain, List.length_flatten, List.map_map]
  congr 1
  exact List.map_congr_left (fun e _ => by simp)

/-! ### C9 -/

/-- The key-based merge sort yields a sequence pairwise ordered by the
key. -/
theorem mergeSort_key_sorted (key : Event → Int) (l : List Event) :
    (l.mergeSort (fun a b => decide (key a ≤ key b))).Pairwise
      (fun a b => key a ≤ key b) := by
  have h := @List.sorted_mergeSort Event
    (fun a b : Event => decide (key a ≤ key b))
    (fun a b c hab hbc => by
      simp only [decide_eq_true_eq] at *
      omega)
    (fun a b => by
      simp only [Bool.or_eq_true, decide_eq_true_eq]
      omega)
    l
  exact h.imp (fun hab => by simpa using hab)

/-- The key-based merge sort is stable: the subsequence of elements
at any fixed key value is exactly the corresponding subsequence of the
input, in input order. -/
theorem mergeSort_key_stable (key : Event → Int) (l : List Event) (d : Int) :
    ((l.mergeSort (fun a b => decide (key a ≤ key b))).filter
        (fun e => decide (key e = d)))
      = l.filter (fun e => decide (key e = d)) := by
  have hall : ∀ e ∈ l.filter (fun e => decide (key e = d)), key e = d := by
    intro e he
    have := (List.mem_filter.mp he).2
    simpa using this
  have hpair : (l.filter (fun e => decide (key e = d))).Pairwise
      (fun a b => decide (key a ≤ key b) = true) := by
    refine List.pairwise_of_forall_mem_list ?_
    intro a ha b hb
    have h1 := hall a ha
    have h2 := hall b hb
    simp [h1, h2]
  have hsub : List.Sublist (l.filter (fun e => decide (key e = d)))
      (l.mergeSort (fun a b => decide (key a ≤ key b))) :=
    List.sublist_mergeSort
      (fun a b c hab hbc => by
        simp only [decide_eq_true_eq] at *
        omega)
      (fun a b => by
        simp only [Bool.or_eq_true, decide_eq_true_eq]
        omega)
      hpair (List.filter_sublist l)
  have hsub2 : List.Sublist (l.filter (fun e => decide (key e = d)))
      ((l.mergeSort (fun a b => decide (key a ≤ key b))).filter
        (fun e => decide (key e = d))) := by
    have h := hsub.filter (fun e => decide (key e = d))
    rwa [List.filter_eq_self.mpr (fun a ha => (List.mem_filter.mp ha).2)] at h
  have hperm : List.Perm
      ((l.mergeSort (fun a b => decide (key a ≤ key b))).filter
        (fun e => decide (key e = d)))
      (l.filter (fun e => decide (key e = d))) :=
    (List.mergeSort_perm l _).filter _
  exact (hsub2.eq_of_length hperm.length_eq.symm).symm

/-- C9: `sort_by_duration` orders events by duration ascending and
`sort_by_timestamp` by timestamp ascending; each returns a permutation
of the input and is stable on ties — the subsequence of events sharing
any fixed sort-key value is unchanged. -/
theorem sort_by_spec (events : List Event) :
    ((sort_by_duration events).Pairwise (fun a b => a.duration ≤ b.duration) ∧
      (sort_by_duration events).Perm events ∧
      ∀ d : Int, (sort_by_duration events).filter (fun e => decide (e.duration = d))
        = events.filter (fun e => decide (e.duration = d))) ∧
    ((sort_by_timestamp events).Pairwise (fun a b => a.timestamp ≤ b.timestamp) ∧
      (sort_by_timestamp events).Perm events ∧
      ∀ t : Int, (sort_by_timestamp events).filter (fun e => decide (e.timestamp = t))
        = events.filter (fun e => decide (e.timestamp = t))) := by
  refine ⟨⟨?_, ?_, ?_⟩, ?_, ?_, ?_⟩
  · exact mergeSort_key_sorted Event.duration events
  · exact List.mergeSort_perm events _
  · exact fun d => mergeSort_key_stable Event.duration events d
  · exact mergeSort_key_sorted Event.timestamp events
  · exact List.mergeSort_perm events _
  · exact fun t => mergeSort_key_stable Event.timestamp events t

/-! ### C3 -/

/-- One accumulator step grows the accumulator by at most one entry. -/
theorem hb_step_length (pulsetime : Int) (acc : List Event) (incoming : Event) :
    (hb_step pulsetime acc incoming).length ≤ acc.length + 1 := by
  unfold hb_step
  cases h : acc.getLast? with
  | none => simp
  | some lastAcc =>
    cases h2 : heartbeat_merge lastAcc incoming pulsetime with
    | some merged =>
      simp only [h2, List.length_append, List.length_cons, List.length_nil,
        List.length_dropLast]
      omega
    | none => simp [h2]

/-- The fold of accumulator steps grows the accumulator by at most the
number of incoming events. -/
theorem hb_foldl_length (events : List Event) (pulsetime : Int) :
    ∀ acc : List Event, (events.foldl (hb_step pulsetime) acc).length
      ≤ acc.length + events.length := by
  induction events with
  | nil =>
    intro acc
    simp
  | cons x xs ih =>
    intro acc
    have h1 := ih (hb_step pulsetime acc x)
    have h2 := hb_step_length pulsetime acc x
    simp only [List.foldl_cons, List.length_cons]
    omega

/-- C3: for every stream with non-decreasing timestamps,
`heartbeat_reduce` is exactly the left fold of the merge-or-append
accumulator step started from the empty accumulator, and the result is
never longer than the input. -/
theorem heartbeat_reduce_foldl (events : List Event) (pulsetime : Int)
    (hsorted : events.Pairwise (fun a b => a.timestamp ≤ b.timestamp)) :
    heartbeat_reduce events pulsetime = events.foldl (hb_step pulsetime) [] ∧
    (heartbeat_reduce events pulsetime).length ≤ events.length := by
  refine ⟨rfl, ?_⟩
  have h := hb_foldl_length events pulsetime []
  simpa [heartbeat_reduce] using h

/-- Witness for C3 at a concrete ordered stream. -/
theorem heartbeat_reduce_foldl_witness :
    heartbeat_reduce [wEvC, wEvD] 5 = [wEvC, wEvD].foldl (hb_step 5) [] ∧
    (heartbeat_reduce [wEvC, wEvD] 5).length ≤ ([wEvC, wEvD] : List Event).length :=
  heartbeat_reduce_foldl [wEvC, wEvD] 5 (by decide)

/-! ### C8 -/

/-- Structural form of the accumulator pass of `heartbeat_reduce`:
process the remaining stream while `cur` is the last accumulated
event. -/
def hb_reduce_aux (p : Int) (cur : Event) : List Event → List Event
  | [] => [cur]
  | e :: es =>
    match heartbeat_merge cur e p with
    | some m => hb_reduce_aux p m es
    | none => cur :: hb_reduce_aux p e es

/-- The fold of accumulator steps coincides with the structural pass
once the accumulator is nonempty. -/
theorem hb_foldl_eq_aux (p : Int) :
    ∀ (es acc : List Event) (cur : Event),
      es.foldl (hb_step p) (acc ++ [cur]) = acc ++ hb_reduce_aux p cur es := by
  intro es
  induction es with
  | nil =>
    intro acc cur
    simp [hb_reduce_aux]
  | cons x xs ih =>
    intro acc cur
    rw [List.foldl_cons]
    cases h2 : heartbeat_merge cur x p with
    | some m =>
      have hstep : hb_step p (acc ++ [cur]) x = acc ++ [m] := by
        unfold hb_step
        simp [List.getLast?_concat, h2, List.dropLast_concat]
      rw [hstep, ih acc m]
      simp [hb_reduce_aux, h2]
    | none =>
      have hstep : hb_step p (acc ++ [cur]) x = (acc ++ [cur]) ++ [x] := by
        unfold hb_step
        simp [List.getLast?_concat, h2]
      rw [hstep, ih (acc ++ [cur]) x]
      simp [hb_reduce_aux, h2]

/-- `heartbeat_reduce` on a nonempty stream is the structural pass
started at the first event. -/
theorem heartbeat_reduce_cons (p : Int) (e : Event) (es : List Event) :
    heartbeat_reduce (e :: es) p = hb_reduce_aux p e es := by
  unfold heartbeat_reduce
  rw [List.foldl_cons]
  have hstep : hb_step p [] e = [e] := rfl
  rw [hstep]
  have h := hb_foldl_eq_aux p es [] e
  simpa using h

/-- `heartbeat_merge` returns `none` exactly when the merge conditions
fail. -/
theorem heartbeat_merge_eq_none_iff (a b : Event) (p : Int) :
    heartbeat_merge a b p = none ↔
      ¬(b.data = a.data ∧ b.timestamp - (a.timestamp + a.duration) ≤ p ∧
        a.timestamp ≤ b.timestamp) := by
  unfold heartbeat_merge
  simp only [Event.start, Event.endTime]
  split
  · rename_i hcond
    exact ⟨fun h => (Option.some_ne_none _ h).elim, fun h => (h hcond).elim⟩
  · rename_i hcond
    exact ⟨fun _ => hcond, fun _ => rfl⟩

/-- A failed merge stays failed for any heartbeat with the same data
and timestamp. -/
theorem heartbeat_merge_none_congr (a b c : Event) (p : Int)
    (h : heartbeat_merge a b p = none) (hd : c.data = b.data)
    (ht : c.timestamp = b.timestamp) :
    heartbeat_merge a c p = none := by
  rw [heartbeat_merge_eq_none_iff] at h ⊢
  rw [hd, ht]
  exact h

/-- A successful merge keeps the last event's data and timestamp. -/
theorem heartbeat_merge_some_fields (a b m : Event) (p : Int)
    (h : heartbeat_merge a b p = some m) :
    m.data = a.data ∧ m.timestamp = a.timestamp := by
  unfold heartbeat_merge at h
  split at h
  · cases h
    exact ⟨rfl, rfl⟩
  · cases h

/-- The structural pass yields a nonempty list whose head keeps the
data and timestamp of the current accumulated event. -/
theorem hb_reduce_aux_head (p : Int) :
    ∀ (es : List Event) (cur : Event),
      ∃ hd tl, hb_reduce_aux p cur es = hd :: tl ∧
        hd.data = cur.data ∧ hd.timestamp = cur.timestamp := by
  intro es
  induction es with
  | nil =>
    intro cur
    exact ⟨cur, [], rfl, rfl, rfl⟩
  | cons e es ih =>
    intro cur
    cases h2 : heartbeat_merge cur e p with
    | some m =>
      obtain ⟨hd, tl, heq, hdata, hts⟩ := ih m
      refine ⟨hd, tl, ?_, ?_, ?_⟩
      · simp [hb_reduce_aux, h2, heq]
      · rw [hdata, (heartbeat_merge_some_fields cur e m p h2).1]
      · rw [hts, (heartbeat_merge_some_fields cur e m p h2).2]
    | none =>
      exact ⟨cur, hb_reduce_aux p e es, by simp [hb_reduce_aux, h2], rfl, rfl⟩

/-- Adjacent events in the output of the structural pass never merge. -/
theorem hb_reduce_aux_chain (p : Int) :
    ∀ (es : List Event) (cur : Event),
      List.Chain' (fun a b => heartbeat_merge a b p = none) (hb_reduce_aux p cur es) := by
  intro es
  induction es with
  | nil =>
    intro cur
    simp [hb_reduce_aux]
  | cons e es ih =>
    intro cur
    cases h2 : heartbeat_merge cur e p with
    | some m =>
      simpa [hb_reduce_aux, h2] using ih m
    | none =>
      obtain ⟨hd, tl, heq, hdata, hts⟩ := hb_reduce_aux_head p es e
      have hchain := ih e
      simp only [hb_reduce_aux, h2]
      rw [heq] at hchain ⊢
      exact List.chain'_cons.mpr
        ⟨heartbeat_merge_none_congr cur e hd p h2 hdata hts, hchain⟩

/-- On a stream whose adjacent events never merge, the structural pass
is the identity. -/
theorem hb_reduce_aux_of_chain (p : Int) :
    ∀ (es : List Event) (cur : Event),
      List.Chain' (fun a b => heartbeat_merge a b p = none) (cur :: es) →
      hb_reduce_aux p cur es = cur :: es := by
  intro es
  induction es with
  | nil =>
    intro cur _
    rfl
  | cons e es ih =>
    intro cur hchain
    rw [List.chain'_cons] at hchain
    simp only [hb_reduce_aux, hchain.1]
    rw [ih e hchain.2]

/-- C8: `heartbeat_reduce` is idempotent — reducing an already-reduced
stream with the same pulsetime returns it unchanged. -/
theorem heartbeat_reduce_idem (s : List Event) (p : Int)
    (hsorted : s.Pairwise (fun a b => a.timestamp ≤ b.timestamp)) :
    heartbeat_reduce (heartbeat_reduce s p) p = heartbeat_reduce s p := by
  cases s with
  | nil => rfl
  | cons e es =>
    rw [heartbeat_reduce_cons]
    obtain ⟨hd, tl, heq, hdata, hts⟩ := hb_reduce_aux_head p es e
    have hchain := hb_reduce_aux_chain p es e
    rw [heq] at hchain ⊢
    rw [heartbeat_reduce_cons]
    exact hb_reduce_aux_of_chain p tl hd hchain

/-- Witness for C8 at a concrete ordered stream. -/
theorem heartbeat_reduce_idem_witness :
    heartbeat_reduce (heartbeat_reduce [wEvC, wEvD] 5) 5
      = heartbeat_reduce [wEvC, wEvD] 5 :=
  heartbeat_reduce_idem [wEvC, wEvD] 5 (by decide)

/-! ### C7 -/

/-- The clipped interval of a pair, viewed as (timestamp, duration),
is symmetric in the pair: only the surviving data differs. -/
theorem clip_pair_interval_symm (e f : Event) :
    (clip_pair e f).map (fun ev => (ev.timestamp, ev.duration))
      = (clip_pair f e).map (fun ev => (ev.timestamp, ev.duration)) := by
  unfold clip_pair
  rw [max_comm f.start e.start, min_comm f.endTime e.endTime]
  split
  · rfl
  · rfl

/-- `filterMap` is the concatenation of the per-element option
results. -/
theorem filterMap_eq_flatMap_toList (g : Event → Option (Int × Int)) (l : List Event) :
    l.filterMap g = l.flatMap (fun a => (g a).toList) := by
  induction l with
  | nil => rfl
  | cons x xs ih =>
    cases h : g x with
    | some b => simp [List.filterMap_cons, h, ih]
    | none => simp [List.filterMap_cons, h, ih]

/-- C7: swapping the roles of `to_filter` and `filter_with` yields the
same multiset of clipped (timestamp, duration) intervals, possibly
reordered; only the surviving data differs between the directions. -/
theorem filter_period_intersect_interval_symm (A B : List Event) :
    List.Perm
      ((filter_period_intersect A B).map (fun ev => (ev.timestamp, ev.duration)))
      ((filter_period_intersect B A).map (fun ev => (ev.timestamp, ev.duration))) := by
  have hform : ∀ (X Y : List Event),
      ((filter_period_intersect X Y).map (fun ev => (ev.timestamp, ev.duration)))
        = X.flatMap (fun e => Y.flatMap (fun f =>
            ((clip_pair e f).map (fun ev => (ev.timestamp, ev.duration))).toList)) := by
    intro X Y
    unfold filter_period_intersect
    rw [List.map_flatMap]
    congr 1
    funext e
    rw [List.map_filterMap, filterMap_eq_flatMap_toList]
  rw [hform A B, hform B A, ← Multiset.coe_eq_coe]
  simp only [← Multiset.coe_bind]
  rw [Multiset.bind_bind]
  refine Multiset.bind_congr (fun f _ => Multiset.bind_congr (fun e _ => ?_))
  rw [clip_pair_interval_symm e f]

/-! ### C4 -/

/-- Splitting a list by a Boolean test and its complement conserves
the total duration. -/
theorem sum_map_filter_add (l : List Event) (pb : Event → Bool) :
    ((l.filter pb).map Event.duration).sum
        + ((l.filter (fun x => ! pb x)).map Event.duration).sum
      = (l.map Event.duration).sum := by
  induction l with
  | nil => rfl
  | cons x xs ih =>
    cases h : pb x <;> simp [List.filter_cons, h] <;> omega

/-- The grouping key depends only on the data mapping. -/
theorem keyTuple_congr (keys : List String) (a b : Event) (h : a.data = b.data) :
    keyTuple keys a = keyTuple keys b := by
  unfold keyTuple
  rw [h]

/-- Key aggregation conserves the total duration. -/
theorem merge_events_by_keys_sum (events : List Event) (keys : List String) :
    ((merge_events_by_keys events keys).map Event.duration).sum
      = (events.map Event.duration).sum := by
  induction events, keys using merge_events_by_keys.induct with
  | case1 keys => simp [merge_events_by_keys]
  | case2 e rest keys ih =>
    simp only [merge_events_by_keys, List.map_cons, List.sum_cons]
    rw [ih]
    have h := sum_map_filter_add rest
      (fun x => decide (keyTuple keys x = keyTuple keys e))
    omega

/-- Every aggregated event carries the data of some input event. -/
theorem merge_events_by_keys_data (events : List Event) (keys : List String) :
    ∀ out ∈ merge_events_by_keys events keys, ∃ e ∈ events, out.data = e.data := by
  induction events, keys using merge_events_by_keys.induct with
  | case1 keys =>
    intro out h
    simp [merge_events_by_keys] at h
  | case2 e rest keys ih =>
    intro out hout
    simp only [merge_events_by_keys, List.mem_cons] at hout
    cases hout with
    | inl h => exact ⟨e, List.mem_cons_self e rest, by rw [h]⟩
    | inr h =>
      obtain ⟨x, hx, hdata⟩ := ih out h
      exact ⟨x, List.mem_cons_of_mem e (List.mem_of_mem_filter hx), hdata⟩

/-- Key aggregation emits one event per distinct key tuple present. -/
theorem merge_events_by_keys_count (events : List Event) (keys : List String) :
    (merge_events_by_keys events keys).length
      = (events.map (keyTuple keys)).toFinset.card := by
  induction events, keys using merge_events_by_keys.induct with
  | case1 keys => simp [merge_events_by_keys]
  | case2 e rest keys ih =>
    simp only [merge_events_by_keys, List.length_cons]
    rw [ih]
    have hset : ((e :: rest).map (keyTuple keys)).toFinset
        = insert (keyTuple keys e)
            (((rest.filter (fun x => ! decide (keyTuple keys x = keyTuple keys e))).map
              (keyTuple keys)).toFinset) := by
      ext t
      simp only [List.map_cons, List.toFinset_cons, Finset.mem_insert,
        List.mem_toFinset, List.mem_map, List.mem_filter]
      constructor
      · rintro (h | ⟨x, hx, rfl⟩)
        · exact Or.inl h
        · by_cases hxe : keyTuple keys x = keyTuple keys e
          · exact Or.inl hxe
          · exact Or.inr ⟨x, ⟨hx, by simp [hxe]⟩, rfl⟩
      · rintro (h | ⟨x, ⟨hx, hneq⟩, rfl⟩)
        · exact Or.inl h
        · exact Or.inr ⟨x, hx, rfl⟩
    rw [hset, Finset.card_insert_of_not_mem]
    simp only [List.mem_toFinset, List.mem_map, List.mem_filter, not_exists]
    rintro x ⟨⟨hx, hneq⟩, heq⟩
    simp only [Bool.not_eq_eq_eq_not, Bool.not_true, decide_eq_false_iff_not] at hneq
    exact hneq heq

/-- Each aggregated event's duration is the sum of the durations of
exactly the inputs sharing its key tuple. -/
theorem merge_events_by_keys_group (events : List Event) (keys : List String) :
    ∀ out ∈ merge_events_by_keys events keys,
      out.duration = ((events.filter (fun x =>
        decide (keyTuple keys x = keyTuple keys out))).map Event.duration).sum := by
  induction events, keys using merge_events_by_keys.induct with
  | case1 keys =>
    intro out h
    simp [merge_events_by_keys] at h
  | case2 e rest keys ih =>
    intro out hout
    simp only [merge_events_by_keys, List.mem_cons] at hout
    cases hout with
    | inl h =>
      have hdata : out.data = e.data := by rw [h]
      have hdur : out.duration = e.duration +
          ((rest.filter (fun x => decide (keyTuple keys x = keyTuple keys e))).map
            Event.duration).sum := by rw [h]
      have hkt : keyTuple keys out = keyTuple keys e := keyTuple_congr keys out e hdata
      simp only [hkt]
      rw [List.filter_cons_of_pos (by simp), List.map_cons, List.sum_cons, hdur]
    | inr h =>
      have hne : keyTuple keys out ≠ keyTuple keys e := by
        obtain ⟨x, hx, hdata⟩ := merge_events_by_keys_data _ keys out h
        have hxd : keyTuple keys out = keyTuple keys x := keyTuple_congr keys out x hdata
        have hflt := (List.mem_filter.mp hx).2
        simp only [Bool.not_eq_eq_eq_not, Bool.not_true, decide_eq_false_iff_not] at hflt
        rw [hxd]
        exact hflt
      rw [ih out h]
      congr 1
      rw [List.filter_cons_of_neg (by simpa using Ne.symm hne)]
      rw [List.filter_filter]
      congr 1
      refine (List.filter_congr ?_).symm
      intro x hx
      by_cases hxo : keyTuple keys x = keyTuple keys out
      · have : keyTuple keys x ≠ keyTuple keys e := by
          rw [hxo]
          exact hne
        simp [hxo, this, hne]
      · simp [hxo]

/-- C4: key aggregation conserves total duration, emits one event per
distinct key tuple present in the input, and gives each output event
the summed duration of exactly the inputs sharing its key tuple. -/
theorem merge_events_by_keys_conservation (events : List Event) (keys : List String)
    (hpresent : ∀ e ∈ events, ∀ k ∈ keys, (e.data.lookup k).isSome = true) :
    ((merge_events_by_keys events keys).map Event.duration).sum
        = (events.map Event.duration).sum ∧
    (merge_events_by_keys events keys).length
        = (events.map (keyTuple keys)).toFinset.card ∧
    ∀ out ∈ merge_events_by_keys events keys,
      out.duration = ((events.filter (fun x =>
        decide (keyTuple keys x = keyTuple keys out))).map Event.duration).sum :=
  ⟨merge_events_by_keys_sum events keys,
   merge_events_by_keys_count events keys,
   merge_events_by_keys_group events keys⟩

/-- Witness for C4 at a concrete event list with two distinct labels. -/
theorem merge_events_by_keys_conservation_witness :
    ((merge_events_by_keys [wEvA, wEvB, wEvA] ["label"]).map Event.duration).sum
        = (([wEvA, wEvB, wEvA] : List Event).map Event.duration).sum ∧
    (merge_events_by_keys [wEvA, wEvB, wEvA] ["label"]).length
        = (([wEvA, wEvB, wEvA] : List Event).map (keyTuple ["label"])).toFinset.card ∧
    ∀ out ∈ merge_events_by_keys [wEvA, wEvB, wEvA] ["label"],
      out.duration = ((([wEvA, wEvB, wEvA] : List Event).filter (fun x =>
        decide (keyTuple ["label"] x = keyTuple ["label"] out))).map Event.duration).sum :=
  merge_events_by_keys_conservation [wEvA, wEvB, wEvA] ["label"] (by decide)
